import Mathlib

set_option maxRecDepth 100000

/-!
Verification of the `text_merge` archiver (src/text_merge.py).

Shallow embedding conventions:
* Python `bytes` values are `List Nat` with every element < 256.
* Python `str` values are `List Nat` of Unicode code points.
* `hashlib.sha256(data).hexdigest()` is `sha256hex` below, a full executable
  SHA-256 producing the lowercase hex digest as a list of code points.
* File-system effects are made explicit: `merge` takes, for each entry name,
  `none` when the source path is not an existing regular file (the
  `is_file()` check) and `some data` with the file's bytes otherwise, and
  returns the byte string written to the archive.  `split` takes the archive
  bytes and returns the chronological list of file writes it performed
  together with either the resulting mapping or the fatal error that aborted
  it.
* The `encoding` argument is modelled as the encoding function
  `List Nat → List Nat` from code points to bytes (`str.encode` with that encoding);
  `bytes.decode()` with no argument is always UTF-8 and is modelled by the
  executable `utf8Decode` below.
* The `delimiter` argument (default `:`) is modelled as a single code
  point, matching its default and every documented use.
-/

namespace TextMerge

/-! ## SHA-256 (hashlib.sha256(...).hexdigest()) -/

def M32 : Nat := 4294967296

def add32 (a b : Nat) : Nat := (a + b) % M32

def rotr32 (n x : Nat) : Nat := ((x >>> n) ||| (x <<< (32 - n))) % M32

def bsig0 (x : Nat) : Nat := rotr32 2 x ^^^ rotr32 13 x ^^^ rotr32 22 x

def bsig1 (x : Nat) : Nat := rotr32 6 x ^^^ rotr32 11 x ^^^ rotr32 25 x

def ssig0 (x : Nat) : Nat := rotr32 7 x ^^^ rotr32 18 x ^^^ (x >>> 3)

def ssig1 (x : Nat) : Nat := rotr32 17 x ^^^ rotr32 19 x ^^^ (x >>> 10)

def chF (x y z : Nat) : Nat := (x &&& y) ^^^ ((x ^^^ 4294967295) &&& z)

def majF (x y z : Nat) : Nat := (x &&& y) ^^^ (x &&& z) ^^^ (y &&& z)

def shaK : List Nat :=
  [1116352408, 1899447441, 3049323471, 3921009573, 961987163, 1508970993,
   2453635748, 2870763221, 3624381080, 310598401, 607225278, 1426881987,
   1925078388, 2162078206, 2614888103, 3248222580, 3835390401, 4022224774,
   264347078, 604807628, 770255983, 1249150122, 1555081692, 1996064986,
   2554220882, 2821834349, 2952996808, 3210313671, 3336571891, 3584528711,
   113926993, 338241895, 666307205, 773529912, 1294757372, 1396182291,
   1695183700, 1986661051, 2177026350, 2456956037, 2730485921, 2820302411,
   3259730800, 3345764771, 3516065817, 3600352804, 4094571909, 275423344,
   430227734, 506948616, 659060556, 883997877, 958139571, 1322822218,
   1537002063, 1747873779, 1955562222, 2024104815, 2227730452, 2361852424,
   2428436474, 2756734187, 3204031479, 3329325298]

def shaH0 : List Nat :=
  [1779033703, 3144134277, 1013904242, 2773480762,
   1359893119, 2600822924, 528734635, 1541459225]

/-- Big-endian split of a 32-bit word into 4 bytes. -/
def be32 (w : Nat) : List Nat :=
  [w / 16777216 % 256, w / 65536 % 256, w / 256 % 256, w % 256]

/-- Big-endian split of a 64-bit value into 8 bytes. -/
def be64 (w : Nat) : List Nat :=
  [w / 72057594037927936 % 256, w / 281474976710656 % 256,
   w / 1099511627776 % 256, w / 4294967296 % 256,
   w / 16777216 % 256, w / 65536 % 256, w / 256 % 256, w % 256]

/-- Combine 4-byte groups (big endian) into 32-bit words. -/
def toWords : Nat → List Nat → List Nat
  | 0, _ => []
  | _ + 1, [] => []
  | fuel + 1, l =>
    (l.take 4).foldl (fun a b => a * 256 + b) 0 :: toWords fuel (l.drop 4)

/-- Extend the 16-word schedule to 64 words. -/
def schedAux : Nat → List Nat → List Nat
  | 0, w => w
  | n + 1, w =>
    let g := fun k => w.getD (w.length - k) 0
    schedAux n (w ++ [add32 (add32 (ssig1 (g 2)) (g 7)) (add32 (ssig0 (g 15)) (g 16))])

def shaRound (st : List Nat) (kw : Nat × Nat) : List Nat :=
  match st with
  | [a, b, c, d, e, f, g, h] =>
    let t1 := add32 h (add32 (bsig1 e) (add32 (chF e f g) (add32 kw.1 kw.2)))
    let t2 := add32 (bsig0 a) (majF a b c)
    [add32 t1 t2, a, b, c, add32 d t1, e, f, g]
  | st => st

/-- One SHA-256 compression step over a 64-byte block. -/
def compress (hs : List Nat) (block : List Nat) : List Nat :=
  let w := schedAux 48 (toWords 16 block)
  let fin := (shaK.zip w).foldl shaRound hs
  (hs.zip fin).map fun p => add32 p.1 p.2

/-- SHA-256 padding: 0x80, zeros, then the 64-bit big-endian bit length. -/
def padMsg (msg : List Nat) : List Nat :=
  msg ++ 128 :: List.replicate ((119 - msg.length % 64) % 64) 0 ++ be64 (8 * msg.length)

def chunks64 : Nat → List Nat → List (List Nat)
  | 0, _ => []
  | _ + 1, [] => []
  | fuel + 1, l => l.take 64 :: chunks64 fuel (l.drop 64)

/-- SHA-256 digest (32 bytes) of a byte string. -/
def sha256bytes (msg : List Nat) : List Nat :=
  let blocks := chunks64 (msg.length + 9) (padMsg msg)
  ((blocks.foldl compress shaH0).map be32).flatten

def hexDigit (n : Nat) : Nat := if n < 10 then 48 + n else 87 + n

def byteHex (b : Nat) : List Nat := [hexDigit (b / 16), hexDigit (b % 16)]

/-- Model of `sha256` from the source: lowercase hex digest, as a list of code points. -/
def sha256hex (data : List Nat) : List Nat :=
  ((sha256bytes data).map byteHex).flatten

/-! ## Texts and the UTF-8 codec

`str.encode` / `bytes.decode`.  `validScalar` is the invariant every code
point of a Python `str` satisfies (Unicode scalar values).  -/

/-- Code points of a Lean string literal (convenience for concrete inputs). -/
def strN (s : String) : List Nat := s.data.map Char.toNat

def validScalar (c : Nat) : Prop := c < 1114112 ∧ ¬ (55296 ≤ c ∧ c < 57344)

instance (c : Nat) : Decidable (validScalar c) := by unfold validScalar; infer_instance

def utf8EncodeChar (c : Nat) : List Nat :=
  if c < 128 then [c]
  else if c < 2048 then [192 + c / 64, 128 + c % 64]
  else if c < 65536 then [224 + c / 4096, 128 + c / 64 % 64, 128 + c % 64]
  else [240 + c / 262144, 128 + c / 4096 % 64, 128 + c / 64 % 64, 128 + c % 64]

/-- Model of `s.encode(utf-8)`. -/
def utf8Encode (s : List Nat) : List Nat := (s.map utf8EncodeChar).flatten

/-- Decode one UTF-8 scalar from the front of a byte string (strict mode:
overlong encodings, surrogates and out-of-range values are rejected, as
the default `bytes.decode()` of Python does). -/
def utf8DecodeChar (l : List Nat) : Option (Nat × List Nat) :=
  match l with
  | [] => none
  | b0 :: rest =>
    if b0 < 128 then some (b0, rest)
    else if b0 < 192 then none
    else if b0 < 224 then
      match rest with
      | b1 :: rest1 =>
        if 128 ≤ b1 ∧ b1 < 192 then
          if 128 ≤ (b0 - 192) * 64 + (b1 - 128) then
            some ((b0 - 192) * 64 + (b1 - 128), rest1)
          else none
        else none
      | [] => none
    else if b0 < 240 then
      match rest with
      | b1 :: b2 :: rest2 =>
        if (128 ≤ b1 ∧ b1 < 192) ∧ (128 ≤ b2 ∧ b2 < 192) then
          if 2048 ≤ (b0 - 224) * 4096 + (b1 - 128) * 64 + (b2 - 128) ∧
              ¬ (55296 ≤ (b0 - 224) * 4096 + (b1 - 128) * 64 + (b2 - 128) ∧
                 (b0 - 224) * 4096 + (b1 - 128) * 64 + (b2 - 128) < 57344) then
            some ((b0 - 224) * 4096 + (b1 - 128) * 64 + (b2 - 128), rest2)
          else none
        else none
      | _ => none
    else
      match rest with
      | b1 :: b2 :: b3 :: rest3 =>
        if (128 ≤ b1 ∧ b1 < 192) ∧ (128 ≤ b2 ∧ b2 < 192) ∧ (128 ≤ b3 ∧ b3 < 192) then
          if 65536 ≤ (b0 - 240) * 262144 + (b1 - 128) * 4096 + (b2 - 128) * 64 + (b3 - 128) ∧
              (b0 - 240) * 262144 + (b1 - 128) * 4096 + (b2 - 128) * 64 + (b3 - 128) < 1114112 then
            some ((b0 - 240) * 262144 + (b1 - 128) * 4096 + (b2 - 128) * 64 + (b3 - 128), rest3)
          else none
        else none
      | _ => none

/-- Fuel-driven decoding loop; each step consumes at least one byte, so any
fuel ≥ length of the input gives the value of `bytes.decode()`. -/
def utf8DecodeAux : Nat → List Nat → Option (List Nat)
  | _, [] => some []
  | 0, _ :: _ => none
  | fuel + 1, l =>
    match utf8DecodeChar l with
    | none => none
    | some (c, rest) => (utf8DecodeAux fuel rest).map (c :: ·)

/-- Model of `b.decode()` — always UTF-8, which is what line 47 of the source uses. -/
def utf8Decode (l : List Nat) : Option (List Nat) := utf8DecodeAux l.length l

/-! ## Python primitives used by the source -/

/-- Python `str` whitespace (the ASCII repertoire, which covers every use in
this development): `str.strip()` and `int()` strip these. -/
def isPySpace (c : Nat) : Bool := c == 32 || c == 9 || c == 10 || c == 13 || c == 11 || c == 12

/-- Model of `s.strip()`. -/
def pyStrip (s : List Nat) : List Nat :=
  (((s.dropWhile isPySpace).reverse).dropWhile isPySpace).reverse

def isDigitCp (c : Nat) : Bool := decide (48 ≤ c ∧ c ≤ 57)

/-- Digits (with single underscores allowed between digits, as the Python `int()` accepts) after the first digit has been consumed into `acc`. -/
def parseUDigitsAux : List Nat → Nat → Option Nat
  | [], acc => some acc
  | [d], acc => if isDigitCp d then some (acc * 10 + (d - 48)) else none
  | d :: d2 :: rest, acc =>
    if isDigitCp d then parseUDigitsAux (d2 :: rest) (acc * 10 + (d - 48))
    else if (d == 95) ∧ isDigitCp d2 then parseUDigitsAux (d2 :: rest) acc
    else none

def parseUDigits : List Nat → Option Nat
  | d :: rest => if isDigitCp d then parseUDigitsAux rest (d - 48) else none
  | [] => none

/-- Model of `int(s)` for a decimal string: surrounding whitespace stripped, optional
single sign, then digits (ASCII repertoire). -/
def pyInt (s : List Nat) : Option Int :=
  match pyStrip s with
  | [] => none
  | c :: ds =>
    if c == 43 then (parseUDigits ds).map Int.ofNat
    else if c == 45 then (parseUDigits ds).map fun n => -(n : Int)
    else (parseUDigits (c :: ds)).map Int.ofNat

/-- Model of `body[:size]` for an `int` size: clamped from the front when `size ≥ 0`,
counted from the end when negative. -/
def pySlice (body : List Nat) (size : Int) : List Nat :=
  if 0 ≤ size then body.take size.toNat
  else body.take (body.length - size.natAbs)

/-- Model of `str(n)` for a natural number: decimal digits, most significant first. -/
def natToDecAux : Nat → Nat → List Nat → List Nat
  | 0, _, acc => acc
  | fuel + 1, n, acc =>
    if n < 10 then (48 + n) :: acc
    else natToDecAux fuel (n / 10) ((48 + n % 10) :: acc)

def natToDec (n : Nat) : List Nat := natToDecAux (n + 1) n []

/-- Model of the `part.split` call on line 45: the part up to the first
newline byte and everything after it; `none` when there is no newline (in
which case the tuple unpacking in the source raises). -/
def splitFirstNewline (part : List Nat) : Option (List Nat × List Nat) :=
  match part.dropWhile (fun b => b != 10) with
  | [] => none
  | _ :: body => some (part.takeWhile (fun b => b != 10), body)

/-- Split a text at the last occurrence of the (single-character) separator
`d`: `some (before, after)` with `d ∉ after`, or `none` when `d` does not
occur.  Building block of `str.rsplit(d, 2)`. -/
def splitLastOn (d : Nat) (s : List Nat) : Option (List Nat × List Nat) :=
  match s.reverse.dropWhile (fun c => c != d) with
  | [] => none
  | _ :: frontRev =>
    some (frontRev.reverse, (s.reverse.takeWhile (fun c => c != d)).reverse)

/-- Model of `s.rsplit(d, 2)` unpacked into exactly three fields, as on line 47 of the
source; `none` when there are fewer than three fields (the source raises
`ValueError` then). -/
def rsplit2 (d : Nat) (s : List Nat) : Option (List Nat × List Nat × List Nat) :=
  match splitLastOn d s with
  | none => none
  | some (a, c) =>
    match splitLastOn d a with
    | none => none
    | some (n, b) => some (n, b, c)

/-- Model of `content.split(sep)` for a non-empty separator, fuel-driven (any fuel ≥
length of the input gives the Python value).  Scans left to right; at each
position either the separator matches (cut) or one byte is kept. -/
def splitOnSepGo (S : List Nat) : Nat → List Nat → List Nat → List (List Nat)
  | _, [], acc => [acc.reverse]
  | 0, l, acc => [acc.reverse ++ l]
  | fuel + 1, x :: xs, acc =>
    if S.isPrefixOf (x :: xs) then
      acc.reverse :: splitOnSepGo S fuel ((x :: xs).drop S.length) []
    else
      splitOnSepGo S fuel xs (x :: acc)

def splitOnSep (S l : List Nat) : List (List Nat) := splitOnSepGo S l.length l []

/-! ## The codec itself (`merge` and `split`) -/

/-- Default sentinel of the program (`--STARTFILE--`), as code points. -/
def defSentinel : List Nat := strN "--STARTFILE--"

/-- The default delimiter, the colon. -/
def defDelim : Nat := 58

/-- Model of `merge` (lines 15–34).  `inputs` maps each target filename to the
contents of its source file, or to `none` when the source path is not an
existing regular file (`is_file()` is false).  The returned byte string is
what the loop writes to the archive; the `print` calls are console-only. -/
def merge (sentinel : List Nat) (inputs : List (List Nat × Option (List Nat)))
    (delimiter : Nat) (encode : List Nat → List Nat) : List Nat :=
  match inputs with
  | [] => []
  | (_, none) :: rest => merge sentinel rest delimiter encode
  | (dstName, some data) :: rest =>
    let checksum := sha256hex data
    let header := dstName ++ delimiter :: natToDec data.length ++ delimiter :: checksum
    let headerLine := sentinel ++ delimiter :: header ++ [10]
    encode headerLine ++ data ++ merge sentinel rest delimiter encode

/-- The bytes `merge` emits for one existing entry. -/
def record (sentinel : List Nat) (delimiter : Nat) (encode : List Nat → List Nat)
    (dstName data : List Nat) : List Nat :=
  encode (sentinel ++ delimiter :: dstName ++ delimiter :: natToDec data.length
    ++ delimiter :: sha256hex data ++ [10]) ++ data

inductive SplitError where
  /-- no newline byte in the chunk: the unpacking on line 45 raises. -/
  | noNewline (part : List Nat)
  /-- line 49: the header bytes do not decode (UnicodeDecodeError is a
  ValueError, so it is caught too) or do not rsplit into three fields. -/
  | invalidHeader (header : List Nat)
  /-- line 51: `int(size_str)` raises. -/
  | badSize (sizeStr : List Nat)
  /-- line 56: recomputed checksum differs from the header field. -/
  | checksumMismatch (filename expected actual : List Nat)
deriving DecidableEq

inductive PartResult where
  | ok (filename fileContent : List Nat)
  | error (e : SplitError)
deriving DecidableEq

def PartResult.isOk : PartResult → Bool
  | .ok _ _ => true
  | .error _ => false

/-- Lines 45–58 of the source: handle one chunk of the archive.  Returns the
stripped filename and the extracted payload, or the fatal error. -/
def processPart (delimiter : Nat) (part : List Nat) : PartResult :=
  match splitFirstNewline part with
  | none => .error (.noNewline part)
  | some (header, body) =>
    match (utf8Decode header).bind (rsplit2 delimiter) with
    | none => .error (.invalidHeader header)
    | some (filename, sizeStr, checksum) =>
      match pyInt sizeStr with
      | none => .error (.badSize sizeStr)
      | some size =>
        let fileContent := pySlice body size
        let actualChecksum := sha256hex fileContent
        if actualChecksum ≠ checksum then
          .error (.checksumMismatch filename checksum actualChecksum)
        else
          .ok (pyStrip filename) fileContent

/-- Destination path `output_path / filename`. -/
def outPath (outputPath filename : List Nat) : List Nat := outputPath ++ 47 :: filename

/-- Python dict assignment `d[k] = v`: updates in place when the key exists,
appends otherwise (insertion order preserved). -/
def dictInsert (d : List (List Nat × List Nat)) (k v : List Nat) :
    List (List Nat × List Nat) :=
  if d.any (fun p => p.1 == k) then d.map (fun p => if p.1 == k then (k, v) else p)
  else d ++ [(k, v)]

inductive SplitResult where
  | ok (d : List (List Nat × List Nat))
  | error (e : SplitError)
deriving DecidableEq

structure SplitOutcome where
  /-- Pairs `(path, bytes)` of each `write_bytes` call, chronologically. -/
  writes : List (List Nat × List Nat)
  result : SplitResult
deriving DecidableEq

/-- The `for part in parts[1:]` loop of `split`, with the writes performed so
far (reversed) and the dictionary `d` as accumulators. -/
def splitGo (delimiter : Nat) (outputPath : List Nat) :
    List (List Nat) → List (List Nat × List Nat) → List (List Nat × List Nat) → SplitOutcome
  | [], ws, d => ⟨ws.reverse, .ok d⟩
  | part :: parts, ws, d =>
    match processPart delimiter part with
    | .error e => ⟨ws.reverse, .error e⟩
    | .ok filename fileContent =>
      splitGo delimiter outputPath parts ((outPath outputPath filename, fileContent) :: ws)
        (dictInsert d filename (outPath outputPath filename))

/-- Model of `split` (lines 37–64).  `content` is the archive file's bytes.  The
sentinel is first extended by the delimiter (line 41) and encoded with the
caller encoding; the content is split on that byte pattern and the leading
chunk is discarded (`parts[1:]`). -/
def split (sentinel content outputPath : List Nat) (delimiter : Nat)
    (encode : List Nat → List Nat) : SplitOutcome :=
  let sep := encode (sentinel ++ [delimiter])
  let parts := splitOnSep sep content
  splitGo delimiter outputPath (parts.drop 1) [] []

/-! ## Occurrences of a pattern in a byte string -/

/-- No occurrence of `S` begins anywhere in `c`, even one that would run past
the end of `c` into an adjacent copy of `S`.  This is the condition under
which the Python `bytes.split` treats `c ++ S` as "chunk, then boundary". -/
def noStraddleOcc (S c : List Nat) : Prop :=
  ∀ i < c.length, ¬ S <+: (c ++ S).drop i

instance (S c : List Nat) : Decidable (noStraddleOcc S c) := by
  unfold noStraddleOcc; infer_instance

/-- Predicate: `S` has no nontrivial border (proper prefix that is also a suffix). -/
def borderFree (S : List Nat) : Prop :=
  ∀ k < S.length, 0 < k → S.take k ≠ S.drop (S.length - k)

instance (S : List Nat) : Decidable (borderFree S) := by
  unfold borderFree; infer_instance

theorem prefix_of_append_left {S a b : List Nat} (h : S <+: a ++ b)
    (hl : S.length ≤ a.length) : S <+: a := by
  rw [List.prefix_iff_eq_take] at h ⊢
  rwa [List.take_append_of_le_length hl] at h

theorem noOcc_of_noStraddleOcc {S c : List Nat} (hS : S ≠ [])
    (h : noStraddleOcc S c) : ∀ i, ¬ S <+: c.drop i := by
  intro i hpre
  have hlen : S.length ≤ c.length - i := by
    have := hpre.length_le
    simpa using this
  have hi : i < c.length := by
    have : 0 < S.length := List.length_pos.mpr hS
    omega
  refine h i hi ?_
  rw [List.drop_append_of_le_length (by omega)]
  exact hpre.trans (List.prefix_append _ _)

theorem not_infix_of_noOcc {S c : List Nat} (h : ∀ i, ¬ S <+: c.drop i) :
    ¬ S <:+: c := by
  intro hinf
  obtain ⟨t, hpre, hsuf⟩ := List.infix_iff_prefix_suffix.mp hinf
  obtain ⟨p, hp⟩ := hsuf
  exact h p.length (by rw [← hp, List.drop_left]; exact hpre)

theorem noStraddleOcc_of_borderFree {S c : List Nat} (hS : S ≠ [])
    (hb : borderFree S) (hc : ¬ S <:+: c) : noStraddleOcc S c := by
  intro i hi hpre
  rw [List.drop_append_of_le_length (by omega)] at hpre
  by_cases hcase : S.length ≤ c.length - i
  · -- the occurrence fits inside `c`: contradicts `hc`
    have : S <+: c.drop i := by
      apply prefix_of_append_left hpre
      simpa using hcase
    exact hc (List.infix_iff_prefix_suffix.mpr ⟨c.drop i, this, List.drop_suffix i c⟩)
  · -- the occurrence straddles into the appended `S`: a nontrivial border
    set u := c.drop i with hu
    have hul : u.length = c.length - i := by simp [hu]
    have hu0 : 0 < u.length := by omega
    have huS : u.length < S.length := by omega
    have htake : S = u ++ S.take (S.length - u.length) := by
      have h1 := List.prefix_iff_eq_take.mp hpre
      rwa [List.take_append_eq_append_take, List.take_of_length_le (by omega)] at h1
    have hdrop : S.drop u.length = S.take (S.length - u.length) := by
      conv_lhs => rw [htake]
      rw [List.drop_left]
    have hkey := hb (S.length - u.length) (by omega) (by omega)
    have harith : S.length - (S.length - u.length) = u.length := by omega
    exact hkey (by rw [harith]; exact hdrop.symm)

theorem prefix_through_sep {S xs ys : List Nat} {b : Nat} (hb : b ∉ S)
    (h : S <+: xs ++ b :: ys) : S <+: xs := by
  induction xs generalizing S with
  | nil =>
    cases S with
    | nil => exact List.nil_prefix
    | cons s S' =>
      rw [List.nil_append] at h
      have := (List.cons_prefix_cons.mp h).1
      exact absurd (this ▸ List.mem_cons_self s S') hb
  | cons x xs' ih =>
    cases S with
    | nil => exact List.nil_prefix
    | cons s S' =>
      rw [List.cons_append] at h
      obtain ⟨rfl, h'⟩ := List.cons_prefix_cons.mp h
      have : S' <+: xs' := ih (fun hm => hb (List.mem_cons_of_mem _ hm)) h'
      exact List.cons_prefix_cons.mpr ⟨rfl, this⟩

theorem infix_sep_split {S xs ys : List Nat} {b : Nat} (hb : b ∉ S) (hS : S ≠ [])
    (h : S <:+: xs ++ b :: ys) : S <:+: xs ∨ S <:+: ys := by
  induction xs with
  | nil =>
    rw [List.nil_append] at h
    rcases List.infix_cons_iff.mp h with hp | hi
    · cases S with
      | nil => exact absurd rfl hS
      | cons s S' =>
        have := (List.cons_prefix_cons.mp hp).1
        exact absurd (this ▸ List.mem_cons_self s S') hb
    · exact Or.inr hi
  | cons x xs' ih =>
    rw [List.cons_append] at h
    rcases List.infix_cons_iff.mp h with hp | hi
    · exact Or.inl (prefix_through_sep hb hp).isInfix
    · rcases ih hi with h1 | h2
      · exact Or.inl (h1.trans (List.suffix_cons x xs').isInfix)
      · exact Or.inr h2

theorem prefix_append_split {S a b : List Nat} (h : S <+: a ++ b) :
    S <+: a ∨ ∃ t, S = a ++ t ∧ t <+: b := by
  by_cases hl : S.length ≤ a.length
  · exact Or.inl (prefix_of_append_left h hl)
  · right
    have h1 := List.prefix_iff_eq_take.mp h
    rw [List.take_append_eq_append_take, List.take_of_length_le (by omega)] at h1
    exact ⟨b.take (S.length - a.length), h1, List.take_prefix _ _⟩

theorem infix_append_split {S a b : List Nat} (h : S <:+: a ++ b) :
    S <:+: a ∨ S <:+: b ∨
      ∃ s t, s ++ t = S ∧ s ≠ [] ∧ t ≠ [] ∧ s <:+ a ∧ t <+: b := by
  induction a with
  | nil => exact Or.inr (Or.inl (by simpa using h))
  | cons x a' ih =>
    rw [List.cons_append] at h
    rcases List.infix_cons_iff.mp h with hp | hi
    · cases S with
      | nil => exact Or.inl List.nil_infix
      | cons s S' =>
        obtain ⟨rfl, h'⟩ := List.cons_prefix_cons.mp hp
        rcases prefix_append_split h' with h1 | ⟨t, rfl, ht⟩
        · exact Or.inl (List.cons_prefix_cons.mpr ⟨rfl, h1⟩).isInfix
        · rcases eq_or_ne t [] with rfl | htn
          · exact Or.inl (by simpa using List.infix_refl (s :: a'))
          · exact Or.inr (Or.inr ⟨s :: a', t, by simp, by simp, htn,
              List.suffix_refl _, ht⟩)
    · rcases ih hi with h1 | h2 | ⟨s, t, hst, hs, ht, hsa, htb⟩
      · exact Or.inl (h1.trans (List.suffix_cons x a').isInfix)
      · exact Or.inr (Or.inl h2)
      · exact Or.inr (Or.inr ⟨s, t, hst, hs, ht, hsa.trans (List.suffix_cons x a'), htb⟩)

theorem not_infix_of_forbidden {S c : List Nat} {x : Nat} (hx : x ∈ S)
    (hc : ∀ y ∈ c, y ≠ x) : ¬ S <:+: c :=
  fun h => hc x (h.subset hx) rfl

/-! ## `bytes.split` on a separator-free / separator-aligned content -/

theorem splitOnSepGo_nil (S : List Nat) (f : Nat) (acc : List Nat) :
    splitOnSepGo S f [] acc = [acc.reverse] := by
  cases f <;> rfl

theorem splitOnSepGo_cons (S : List Nat) (f x : Nat) (xs acc : List Nat) :
    splitOnSepGo S (f + 1) (x :: xs) acc =
      if S.isPrefixOf (x :: xs) then
        acc.reverse :: splitOnSepGo S f ((x :: xs).drop S.length) []
      else splitOnSepGo S f xs (x :: acc) := rfl

theorem splitOnSepGo_fuel (S : List Nat) (hS : S ≠ []) :
    ∀ f₁ f₂ l acc, l.length ≤ f₁ → l.length ≤ f₂ →
      splitOnSepGo S f₁ l acc = splitOnSepGo S f₂ l acc := by
  intro f₁
  induction f₁ with
  | zero =>
    intro f₂ l acc h1 _
    have : l = [] := by cases l <;> simp_all
    subst this
    simp [splitOnSepGo_nil]
  | succ f ih =>
    intro f₂ l acc h1 h2
    cases l with
    | nil => simp [splitOnSepGo_nil]
    | cons x xs =>
      obtain ⟨f₂', rfl⟩ : ∃ k, f₂ = k + 1 := ⟨f₂ - 1, by simp at h2; omega⟩
      rw [splitOnSepGo_cons, splitOnSepGo_cons]
      have hSlen : 0 < S.length := List.length_pos.mpr hS
      by_cases hp : S.isPrefixOf (x :: xs)
      · simp only [hp, if_true]
        have hd : ((x :: xs).drop S.length).length ≤ f ∧
            ((x :: xs).drop S.length).length ≤ f₂' := by
          simp only [List.length_drop, List.length_cons]
          simp at h1 h2
          omega
        rw [ih f₂' _ [] hd.1 hd.2]
      · simp only [hp, if_false]
        exact ih f₂' xs (x :: acc) (by simp at h1 ⊢; omega) (by simp at h2 ⊢; omega)

theorem splitOnSepGo_sep (S : List Nat) (hS : S ≠ []) (f : Nat) (r acc : List Nat)
    (hf : S.length + r.length ≤ f + 1) :
    splitOnSepGo S (f + 1) (S ++ r) acc = acc.reverse :: splitOnSepGo S r.length r [] := by
  obtain ⟨s, S', rfl⟩ : ∃ s S', S = s :: S' := by
    cases S with
    | nil => exact absurd rfl hS
    | cons s S' => exact ⟨s, S', rfl⟩
  rw [List.cons_append, splitOnSepGo_cons]
  have hp : (s :: S').isPrefixOf (s :: (S' ++ r)) :=
    List.isPrefixOf_iff_prefix.mpr (List.prefix_append _ _)
  rw [if_pos hp]
  have hdrop : (s :: (S' ++ r)).drop (s :: S').length = r := by
    show (s :: (S' ++ r)).drop (S'.length + 1) = r
    rw [List.drop_succ_cons, List.drop_left]
  rw [hdrop]
  congr 1
  exact splitOnSepGo_fuel _ hS f r.length r [] (by simp at hf ⊢; omega) le_rfl

theorem splitOnSep_sep (S : List Nat) (hS : S ≠ []) (r : List Nat) :
    splitOnSep S (S ++ r) = [] :: splitOnSep S r := by
  unfold splitOnSep
  obtain ⟨f, hf⟩ : ∃ f, (S ++ r).length = f + 1 := by
    have h0 : 0 < S.length := List.length_pos.mpr hS
    exact ⟨(S ++ r).length - 1, by simp; omega⟩
  rw [hf, splitOnSepGo_sep S hS f r [] (by simp at hf; omega)]
  rfl

theorem splitOnSepGo_noOcc (S : List Nat) (hS : S ≠ []) :
    ∀ c f acc, c.length ≤ f → (∀ i, ¬ S <+: c.drop i) →
      splitOnSepGo S f c acc = [acc.reverse ++ c] := by
  intro c
  induction c with
  | nil => intro f acc _ _; simp [splitOnSepGo_nil]
  | cons x c' ih =>
    intro f acc hf hno
    obtain ⟨f', rfl⟩ : ∃ k, f = k + 1 := ⟨f - 1, by simp at hf; omega⟩
    rw [splitOnSepGo_cons]
    have hp : ¬ S.isPrefixOf (x :: c') := by
      rw [ List.isPrefixOf_iff_prefix]
      simpa using hno 0
    rw [if_neg hp]
    rw [ih f' (x :: acc) (by simp at hf ⊢; omega)
      (fun i => by simpa using hno (i + 1))]
    simp

theorem splitOnSepGo_chunk (S : List Nat) (hS : S ≠ []) :
    ∀ c f acc r, (c ++ S ++ r).length ≤ f → noStraddleOcc S c →
      splitOnSepGo S f (c ++ S ++ r) acc =
        (acc.reverse ++ c) :: splitOnSepGo S r.length r [] := by
  intro c
  induction c with
  | nil =>
    intro f acc r hf _
    rw [List.nil_append] at hf ⊢
    obtain ⟨f', rfl⟩ : ∃ k, f = k + 1 := by
      have : 0 < S.length := List.length_pos.mpr hS
      exact ⟨f - 1, by simp at hf; omega⟩
    rw [splitOnSepGo_sep S hS f' r acc (by simpa using hf)]
    simp
  | cons x c' ih =>
    intro f acc r hf h
    obtain ⟨f', rfl⟩ : ∃ k, f = k + 1 := ⟨f - 1, by simp at hf; omega⟩
    simp only [List.cons_append] at hf ⊢
    rw [splitOnSepGo_cons]
    have hp : ¬ S.isPrefixOf (x :: (c' ++ S ++ r)) := by
      rw [ List.isPrefixOf_iff_prefix]
      intro hpre
      have hx : S <+: (x :: c') ++ S :=
        prefix_of_append_left
          (show S <+: ((x :: c') ++ S) ++ r by simpa [List.append_assoc] using hpre)
          (by simp; omega)
      exact h 0 (by simp) (by simpa using hx)
    rw [if_neg hp]
    have hshift : noStraddleOcc S c' := by
      intro i hi hpre
      refine h (i + 1) (by simp; omega) ?_
      simpa [List.cons_append, List.drop_succ_cons] using hpre
    rw [ih f' (x :: acc) r (by simp at hf ⊢; omega) hshift]
    simp

theorem splitOnSep_chunk (S : List Nat) (hS : S ≠ []) (c r : List Nat)
    (h : noStraddleOcc S c) :
    splitOnSep S (c ++ S ++ r) = c :: splitOnSep S r := by
  unfold splitOnSep
  obtain ⟨f, hf⟩ : ∃ f, (c ++ S ++ r).length = f + 1 := by
    have : 0 < S.length := List.length_pos.mpr hS
    refine ⟨(c ++ S ++ r).length - 1, by simp; omega⟩
  rw [hf, splitOnSepGo_chunk S hS c (f + 1) [] r (by omega) h]
  rfl

theorem splitOnSep_self (S : List Nat) (hS : S ≠ []) (c : List Nat)
    (h : noStraddleOcc S c) : splitOnSep S c = [c] := by
  unfold splitOnSep
  rw [splitOnSepGo_noOcc S hS c c.length [] le_rfl (noOcc_of_noStraddleOcc hS h)]
  rfl

/-- The central parsing fact: splitting the concatenation `S++c₁ S++c₂ …`
on `S` yields the empty leading chunk followed by `c₁, c₂, …`, provided no
occurrence of `S` starts inside any `cᵢ`. -/
theorem splitOnSep_archive (S : List Nat) (hS : S ≠ []) :
    ∀ cs : List (List Nat), (∀ c ∈ cs, noStraddleOcc S c) →
      splitOnSep S ((cs.map (S ++ ·)).flatten) = [] :: cs := by
  have chunks : ∀ cs : List (List Nat), (∀ c ∈ cs, noStraddleOcc S c) →
      ∀ c, noStraddleOcc S c →
        splitOnSep S (c ++ (cs.map (S ++ ·)).flatten) = c :: cs := by
    intro cs
    induction cs with
    | nil =>
      intro _ c hc
      simpa using splitOnSep_self S hS c hc
    | cons c₂ cs' ih =>
      intro hall c hc
      have : c ++ ((c₂ :: cs').map (S ++ ·)).flatten
          = c ++ S ++ (c₂ ++ (cs'.map (S ++ ·)).flatten) := by
        simp [List.append_assoc]
      rw [this, splitOnSep_chunk S hS c _ hc,
        ih (fun x hx => hall x (List.mem_cons_of_mem _ hx)) c₂
          (hall c₂ (List.mem_cons_self _ _))]
  intro cs hall
  cases cs with
  | nil => rfl
  | cons c cs' =>
    have : ((c :: cs').map (S ++ ·)).flatten
        = S ++ (c ++ (cs'.map (S ++ ·)).flatten) := by
      simp [List.append_assoc]
    rw [this, splitOnSep_sep S hS,
      chunks cs' (fun x hx => hall x (List.mem_cons_of_mem _ hx)) c
        (hall c (List.mem_cons_self _ _))]


/-! ## UTF-8 codec lemmas -/

theorem utf8Encode_nil : utf8Encode [] = [] := rfl

theorem utf8Encode_cons (c : Nat) (s : List Nat) :
    utf8Encode (c :: s) = utf8EncodeChar c ++ utf8Encode s := by
  simp [utf8Encode]

theorem utf8Encode_append (a b : List Nat) :
    utf8Encode (a ++ b) = utf8Encode a ++ utf8Encode b := by
  simp [utf8Encode]

theorem utf8EncodeChar_ascii {c : Nat} (h : c < 128) : utf8EncodeChar c = [c] := by
  simp [utf8EncodeChar, h]

theorem utf8Encode_ascii {s : List Nat} (h : ∀ c ∈ s, c < 128) : utf8Encode s = s := by
  induction s with
  | nil => rfl
  | cons c s' ih =>
    rw [utf8Encode_cons, utf8EncodeChar_ascii (h c (List.mem_cons_self _ _)),
      ih (fun x hx => h x (List.mem_cons_of_mem _ hx))]
    rfl

theorem utf8EncodeChar_ne_nil (c : Nat) : utf8EncodeChar c ≠ [] := by
  unfold utf8EncodeChar
  split
  · simp
  · split
    · simp
    · split <;> simp

theorem mem_utf8EncodeChar_of_lt {b c : Nat} (hb : b ∈ utf8EncodeChar c)
    (hlt : b < 128) : c = b := by
  unfold utf8EncodeChar at hb
  by_cases h1 : c < 128
  · simp [h1] at hb; omega
  · by_cases h2 : c < 2048
    · simp [h1, h2] at hb; omega
    · by_cases h3 : c < 65536
      · simp [h1, h2, h3] at hb; omega
      · simp [h1, h2, h3] at hb; omega

theorem mem_utf8Encode_of_lt {b : Nat} {s : List Nat} (hb : b ∈ utf8Encode s)
    (hlt : b < 128) : b ∈ s := by
  induction s with
  | nil => simpa [utf8Encode] using hb
  | cons c s' ih =>
    rw [utf8Encode_cons, List.mem_append] at hb
    rcases hb with h | h
    · exact (mem_utf8EncodeChar_of_lt h hlt) ▸ List.mem_cons_self _ _
    · exact List.mem_cons_of_mem _ (ih h)

theorem utf8DecodeChar_encodeChar {c : Nat} (h : validScalar c) (r : List Nat) :
    utf8DecodeChar (utf8EncodeChar c ++ r) = some (c, r) := by
  obtain ⟨h1, h2⟩ := h
  by_cases hc1 : c < 128
  · rw [utf8EncodeChar_ascii hc1]
    simp only [List.cons_append, List.nil_append, utf8DecodeChar, if_pos hc1]
  · by_cases hc2 : c < 2048
    · simp only [utf8EncodeChar, if_neg hc1, if_pos hc2, List.cons_append, List.nil_append]
      simp only [utf8DecodeChar]
      rw [if_neg (by omega), if_neg (by omega), if_pos (by omega),
        if_pos (show 128 ≤ 128 + c % 64 ∧ 128 + c % 64 < 192 by omega),
        if_pos (by omega)]
      have : (192 + c / 64 - 192) * 64 + (128 + c % 64 - 128) = c := by omega
      rw [this]
    · by_cases hc3 : c < 65536
      · simp only [utf8EncodeChar, if_neg hc1, if_neg hc2, if_pos hc3,
          List.cons_append, List.nil_append]
        simp only [utf8DecodeChar]
        rw [if_neg (by omega), if_neg (by omega), if_neg (by omega), if_pos (by omega),
          if_pos (show (128 ≤ 128 + c / 64 % 64 ∧ 128 + c / 64 % 64 < 192) ∧
            128 ≤ 128 + c % 64 ∧ 128 + c % 64 < 192 by omega)]
        have hv : (224 + c / 4096 - 224) * 4096 + (128 + c / 64 % 64 - 128) * 64 +
            (128 + c % 64 - 128) = c := by omega
        rw [hv, if_pos (by exact ⟨by omega, h2⟩)]
      · simp only [utf8EncodeChar, if_neg hc1, if_neg hc2, if_neg hc3,
          List.cons_append, List.nil_append]
        simp only [utf8DecodeChar]
        rw [if_neg (by omega), if_neg (by omega), if_neg (by omega), if_neg (by omega),
          if_pos (show (128 ≤ 128 + c / 4096 % 64 ∧ 128 + c / 4096 % 64 < 192) ∧
            (128 ≤ 128 + c / 64 % 64 ∧ 128 + c / 64 % 64 < 192) ∧
            128 ≤ 128 + c % 64 ∧ 128 + c % 64 < 192 by omega)]
        have hv : (240 + c / 262144 - 240) * 262144 + (128 + c / 4096 % 64 - 128) * 4096 +
            (128 + c / 64 % 64 - 128) * 64 + (128 + c % 64 - 128) = c := by omega
        rw [hv, if_pos (by omega)]

theorem utf8DecodeAux_encode :
    ∀ (s : List Nat) (f : Nat), (∀ c ∈ s, validScalar c) → (utf8Encode s).length ≤ f →
      utf8DecodeAux f (utf8Encode s) = some s := by
  intro s
  induction s with
  | nil => intro f _ _; rw [utf8Encode_nil]; cases f <;> rfl
  | cons c s' ih =>
    intro f hv hf
    rw [utf8Encode_cons] at hf ⊢
    obtain ⟨b, bs, hb⟩ : ∃ b bs, utf8EncodeChar c = b :: bs := by
      cases hchar : utf8EncodeChar c with
      | nil => exact absurd hchar (utf8EncodeChar_ne_nil c)
      | cons b bs => exact ⟨b, bs, rfl⟩
    obtain ⟨f', rfl⟩ : ∃ k, f = k + 1 := by
      refine ⟨f - 1, ?_⟩
      rw [hb] at hf
      simp at hf
      omega
    have hstep : utf8DecodeAux (f' + 1) (utf8EncodeChar c ++ utf8Encode s')
        = (utf8DecodeAux f' (utf8Encode s')).map (c :: ·) := by
      rw [hb, List.cons_append]
      show utf8DecodeAux (f' + 1) (b :: (bs ++ utf8Encode s')) = _
      rw [show utf8DecodeAux (f' + 1) (b :: (bs ++ utf8Encode s'))
          = match utf8DecodeChar (b :: (bs ++ utf8Encode s')) with
            | none => none
            | some (c', rest) => (utf8DecodeAux f' rest).map (c' :: ·) from rfl]
      rw [show b :: (bs ++ utf8Encode s') = utf8EncodeChar c ++ utf8Encode s' by rw [hb]; rfl]
      rw [utf8DecodeChar_encodeChar (hv c (List.mem_cons_self _ _)) (utf8Encode s')]
    rw [hstep, ih f' (fun x hx => hv x (List.mem_cons_of_mem _ hx))
      (by rw [hb] at hf; simp at hf ⊢; omega)]
    rfl

theorem utf8Decode_encode {s : List Nat} (h : ∀ c ∈ s, validScalar c) :
    utf8Decode (utf8Encode s) = some s :=
  utf8DecodeAux_encode s (utf8Encode s).length h le_rfl


/-! ## Lemmas about the Python string primitives -/

theorem dropWhile_all_true {p : Nat → Bool} :
    ∀ {pre : List Nat}, (∀ b ∈ pre, p b = true) → ∀ {x : Nat}, p x = false →
      ∀ (post : List Nat), (pre ++ x :: post).dropWhile p = x :: post := by
  intro pre
  induction pre with
  | nil => intro _ x hx post; simp [List.dropWhile_cons, hx]
  | cons a pre' ih =>
    intro h x hx post
    rw [List.cons_append, List.dropWhile_cons, if_pos (h a (List.mem_cons_self _ _))]
    exact ih (fun b hb => h b (List.mem_cons_of_mem _ hb)) hx post

theorem takeWhile_all_true {p : Nat → Bool} :
    ∀ {pre : List Nat}, (∀ b ∈ pre, p b = true) → ∀ {x : Nat}, p x = false →
      ∀ (post : List Nat), (pre ++ x :: post).takeWhile p = pre := by
  intro pre
  induction pre with
  | nil => intro _ x hx post; simp [List.takeWhile_cons, hx]
  | cons a pre' ih =>
    intro h x hx post
    rw [List.cons_append, List.takeWhile_cons, if_pos (h a (List.mem_cons_self _ _))]
    rw [ih (fun b hb => h b (List.mem_cons_of_mem _ hb)) hx post]

theorem dropWhile_all_false {p : Nat → Bool} {s : List Nat}
    (h : ∀ b ∈ s, p b = false) : s.dropWhile p = s := by
  cases s with
  | nil => rfl
  | cons a s' => rw [List.dropWhile_cons, if_neg (by simp [h a (List.mem_cons_self _ _)])]

theorem pyStrip_eq_self {s : List Nat} (h : ∀ c ∈ s, isPySpace c = false) :
    pyStrip s = s := by
  unfold pyStrip
  rw [dropWhile_all_false h,
    dropWhile_all_false (fun c hc => h c (List.mem_reverse.mp hc))]
  simp

/-! ## Decimal printing and `int()` parsing -/

theorem natToDec_small {n : Nat} (h : n < 10) : natToDec n = [48 + n] := by
  unfold natToDec
  rw [natToDecAux, if_pos h]

theorem natToDecAux_expand : ∀ n f acc, n < f → natToDecAux f n acc = natToDec n ++ acc := by
  intro n
  induction n using Nat.strong_induction_on with
  | _ n ih =>
    intro f acc hf
    obtain ⟨f', rfl⟩ : ∃ k, f = k + 1 := ⟨f - 1, by omega⟩
    by_cases h10 : n < 10
    · rw [natToDecAux, if_pos h10, natToDec_small h10]
      rfl
    · rw [natToDecAux, if_neg h10]
      have hrec : n / 10 < n := Nat.div_lt_self (by omega) (by omega)
      rw [ih (n / 10) hrec f' _ (by omega)]
      conv_rhs => rw [natToDec, natToDecAux, if_neg h10]
      rw [ih (n / 10) hrec n _ (by omega)]
      simp

theorem natToDec_split {n : Nat} (h : ¬ n < 10) :
    natToDec n = natToDec (n / 10) ++ [48 + n % 10] := by
  conv_lhs => rw [natToDec, natToDecAux, if_neg h]
  exact natToDecAux_expand (n / 10) n _ (Nat.div_lt_self (by omega) (by omega))

theorem natToDec_digits : ∀ n, ∀ b ∈ natToDec n, 48 ≤ b ∧ b ≤ 57 := by
  intro n
  induction n using Nat.strong_induction_on with
  | _ n ih =>
    by_cases h10 : n < 10
    · rw [natToDec_small h10]; intro b hb; simp at hb; omega
    · rw [natToDec_split h10]
      intro b hb
      rcases List.mem_append.mp hb with h | h
      · exact ih (n / 10) (Nat.div_lt_self (by omega) (by omega)) b h
      · simp at h; omega

theorem foldl_digits_natToDec : ∀ n,
    (natToDec n).foldl (fun a d => a * 10 + (d - 48)) 0 = n := by
  intro n
  induction n using Nat.strong_induction_on with
  | _ n ih =>
    by_cases h10 : n < 10
    · rw [natToDec_small h10]; simp
    · rw [natToDec_split h10, List.foldl_append]
      rw [ih (n / 10) (Nat.div_lt_self (by omega) (by omega))]
      show n / 10 * 10 + (48 + n % 10 - 48) = n
      omega

theorem parseUDigitsAux_one (d acc : Nat) :
    parseUDigitsAux [d] acc = if isDigitCp d then some (acc * 10 + (d - 48)) else none := rfl

theorem parseUDigitsAux_two (d d2 : Nat) (rest : List Nat) (acc : Nat) :
    parseUDigitsAux (d :: d2 :: rest) acc =
      if isDigitCp d then parseUDigitsAux (d2 :: rest) (acc * 10 + (d - 48))
      else if (d == 95) ∧ isDigitCp d2 then parseUDigitsAux (d2 :: rest) acc
      else none := rfl

theorem parseUDigitsAux_all_digits : ∀ (ds : List Nat) (acc : Nat),
    (∀ d ∈ ds, 48 ≤ d ∧ d ≤ 57) →
    parseUDigitsAux ds acc = some (ds.foldl (fun a d => a * 10 + (d - 48)) acc) := by
  intro ds
  induction ds with
  | nil => intro acc _; rfl
  | cons d rest ih =>
    intro acc h
    have hd := h d (List.mem_cons_self _ _)
    cases rest with
    | nil => rw [parseUDigitsAux_one, if_pos (by simp [isDigitCp]; omega)]; rfl
    | cons d2 rest2 =>
      rw [parseUDigitsAux_two, if_pos (by simp [isDigitCp]; omega)]
      rw [ih _ (fun x hx => h x (List.mem_cons_of_mem _ hx))]
      rfl

theorem natToDec_ne_nil (n : Nat) : natToDec n ≠ [] := by
  by_cases h10 : n < 10
  · rw [natToDec_small h10]; simp
  · rw [natToDec_split h10]; simp

theorem parseUDigits_natToDec (n : Nat) : parseUDigits (natToDec n) = some n := by
  obtain ⟨d, rest, hd⟩ : ∃ d rest, natToDec n = d :: rest := by
    cases hc : natToDec n with
    | nil => exact absurd hc (natToDec_ne_nil n)
    | cons d rest => exact ⟨d, rest, rfl⟩
  have hdig : 48 ≤ d ∧ d ≤ 57 := natToDec_digits n d (hd ▸ List.mem_cons_self _ _)
  rw [hd, parseUDigits, if_pos (by simp [isDigitCp]; omega)]
  rw [parseUDigitsAux_all_digits rest (d - 48)
    (fun x hx => natToDec_digits n x (hd ▸ List.mem_cons_of_mem _ hx))]
  have hval := foldl_digits_natToDec n
  rw [hd] at hval
  simp only [List.foldl_cons, Nat.zero_mul, Nat.zero_add] at hval
  rw [hval]

theorem pyStrip_natToDec (n : Nat) : pyStrip (natToDec n) = natToDec n := by
  refine pyStrip_eq_self fun c hc => ?_
  have := natToDec_digits n c hc
  simp [isPySpace]
  omega

theorem pyInt_natToDec (n : Nat) : pyInt (natToDec n) = some (n : Int) := by
  obtain ⟨d, rest, hd⟩ : ∃ d rest, natToDec n = d :: rest := by
    cases hc : natToDec n with
    | nil => exact absurd hc (natToDec_ne_nil n)
    | cons d rest => exact ⟨d, rest, rfl⟩
  have hdig : 48 ≤ d ∧ d ≤ 57 := natToDec_digits n d (hd ▸ List.mem_cons_self _ _)
  unfold pyInt
  rw [pyStrip_natToDec, hd]
  show (if d == 43 then _ else if d == 45 then _ else (parseUDigits (d :: rest)).map Int.ofNat) = _
  rw [if_neg (by simp; omega), if_neg (by simp; omega), ← hd, parseUDigits_natToDec]
  rfl

/-! ## First-newline and rsplit lemmas -/

theorem splitFirstNewline_spec {pre : List Nat} (h : ∀ b ∈ pre, b ≠ 10)
    (post : List Nat) : splitFirstNewline (pre ++ 10 :: post) = some (pre, post) := by
  have hall : ∀ b ∈ pre, (b != 10) = true := fun b hb => by
    simpa using h b hb
  have h10 : ((10 : Nat) != 10) = false := by simp
  unfold splitFirstNewline
  rw [dropWhile_all_true hall h10 post, takeWhile_all_true hall h10 post]

theorem splitLastOn_spec {d : Nat} {a c : List Nat} (hc : ∀ x ∈ c, x ≠ d) :
    splitLastOn d (a ++ d :: c) = some (a, c) := by
  have hall : ∀ x ∈ c.reverse, (x != d) = true := fun x hx => by
    simpa using hc x (List.mem_reverse.mp hx)
  have hd : ((d : Nat) != d) = false := by simp
  have hr : (a ++ d :: c).reverse = c.reverse ++ d :: a.reverse := by
    simp
  unfold splitLastOn
  rw [hr, dropWhile_all_true hall hd a.reverse, takeWhile_all_true hall hd a.reverse]
  simp

theorem rsplit2_spec {d2 : Nat} {name sizeS check : List Nat}
    (hs : ∀ x ∈ sizeS, x ≠ d2) (hc : ∀ x ∈ check, x ≠ d2) :
    rsplit2 d2 (name ++ d2 :: sizeS ++ d2 :: check) = some (name, sizeS, check) := by
  unfold rsplit2
  simp only [splitLastOn_spec hc, splitLastOn_spec hs]


/-! ## Hex digest and decimal charset facts -/

theorem validScalar_of_lt {c : Nat} (h : c < 128) : validScalar c :=
  ⟨by omega, by omega⟩

theorem sha256bytes_lt (msg : List Nat) : ∀ b ∈ sha256bytes msg, b < 256 := by
  intro b hb
  unfold sha256bytes at hb
  rw [List.mem_flatten] at hb
  obtain ⟨l, hl, hbl⟩ := hb
  rw [List.mem_map] at hl
  obtain ⟨w, _, rfl⟩ := hl
  simp [be32] at hbl
  rcases hbl with h | h | h | h <;> omega

theorem hexDigit_charset {n : Nat} (h : n < 16) :
    (48 ≤ hexDigit n ∧ hexDigit n ≤ 57) ∨ (97 ≤ hexDigit n ∧ hexDigit n ≤ 102) := by
  unfold hexDigit
  split <;> omega

theorem sha256hex_charset (data : List Nat) :
    ∀ b ∈ sha256hex data, (48 ≤ b ∧ b ≤ 57) ∨ (97 ≤ b ∧ b ≤ 102) := by
  intro b hb
  unfold sha256hex at hb
  rw [List.mem_flatten] at hb
  obtain ⟨l, hl, hbl⟩ := hb
  rw [List.mem_map] at hl
  obtain ⟨w, hw, rfl⟩ := hl
  have hw256 := sha256bytes_lt data w hw
  simp [byteHex] at hbl
  rcases hbl with rfl | rfl
  · exact hexDigit_charset (by omega)
  · exact hexDigit_charset (by omega)

/-! ## The shape of a merged archive -/

/-- The entries of the input mapping whose source file exists. -/
def existing (inputs : List (List Nat × Option (List Nat))) :
    List (List Nat × List Nat) :=
  inputs.filterMap fun p => p.2.map fun data => (p.1, data)

theorem merge_eq_records (sentinel : List Nat) (delimiter : Nat)
    (encode : List Nat → List Nat) :
    ∀ inputs, merge sentinel inputs delimiter encode
      = ((existing inputs).map fun e => record sentinel delimiter encode e.1 e.2).flatten := by
  intro inputs
  induction inputs with
  | nil => rfl
  | cons p rest ih =>
    obtain ⟨name, dOpt⟩ := p
    cases dOpt with
    | none =>
      show merge sentinel rest delimiter encode = _
      rw [ih]
      simp [existing]
    | some data =>
      show encode (sentinel ++ delimiter ::
            (name ++ delimiter :: natToDec data.length ++ delimiter :: sha256hex data) ++ [10])
          ++ data ++ merge sentinel rest delimiter encode = _
      rw [ih]
      simp [existing, record, List.filterMap_cons, List.append_assoc]

/-- Boundary bytes with the default sentinel, delimiter and encoding:
`"--STARTFILE--:"`. -/
def SB : List Nat := defSentinel ++ [defDelim]

/-- The bytes of one record after the boundary `SB`: the rest of the header
line, the newline byte, then the raw payload. -/
def chunkOf (dstName data : List Nat) : List Nat :=
  utf8Encode (dstName ++ defDelim :: natToDec data.length ++ defDelim :: sha256hex data)
    ++ 10 :: data


theorem utf8Encode_SB : utf8Encode (defSentinel ++ [defDelim]) = SB := by decide

theorem record_eq_chunk (dstName data : List Nat) :
    record defSentinel defDelim utf8Encode dstName data = SB ++ chunkOf dstName data := by
  unfold record chunkOf
  have htext : defSentinel ++ defDelim :: dstName ++ defDelim :: natToDec data.length
        ++ defDelim :: sha256hex data ++ [10]
      = (defSentinel ++ [defDelim]) ++
        ((dstName ++ defDelim :: natToDec data.length ++ defDelim :: sha256hex data) ++ [10]) := by
    simp
  rw [htext, utf8Encode_append, utf8Encode_SB, utf8Encode_append]
  rw [show utf8Encode [10] = [10] by decide]
  simp

/-- Every code point of the header text after the boundary is harmless:
this packages the membership case analysis used repeatedly below. -/
theorem headerTail_mem {dstName data : List Nat} {b : Nat}
    (hb : b ∈ dstName ++ defDelim :: natToDec data.length ++ defDelim :: sha256hex data) :
    b ∈ dstName ∨ b = 58 ∨ (48 ≤ b ∧ b ≤ 57) ∨ (97 ≤ b ∧ b ≤ 102) := by
  rcases List.mem_append.mp hb with h | h
  · rcases List.mem_append.mp h with h' | h'
    · exact Or.inl h'
    · rcases List.mem_cons.mp h' with h'' | h''
      · exact Or.inr (Or.inl (by simpa [defDelim] using h''))
      · exact Or.inr (Or.inr (Or.inl (natToDec_digits _ b h'')))
  · rcases List.mem_cons.mp h with h' | h'
    · exact Or.inr (Or.inl (by simpa [defDelim] using h'))
    · rcases sha256hex_charset data b h' with h'' | h''
      · exact Or.inr (Or.inr (Or.inl h''))
      · exact Or.inr (Or.inr (Or.inr h''))

theorem processPart_chunkOf {dstName : List Nat} (data : List Nat)
    (h1 : ∀ c ∈ dstName, validScalar c) (h2 : 10 ∉ dstName)
    (h3 : pyStrip dstName = dstName) :
    processPart defDelim (chunkOf dstName data) = .ok dstName data := by
  have hnl : splitFirstNewline
      (utf8Encode (dstName ++ defDelim :: natToDec data.length ++ defDelim :: sha256hex data)
        ++ 10 :: data)
      = some (utf8Encode (dstName ++ defDelim :: natToDec data.length
          ++ defDelim :: sha256hex data), data) := by
    apply splitFirstNewline_spec
    intro b hb hb10
    subst hb10
    have h10T := mem_utf8Encode_of_lt hb (by omega)
    rcases headerTail_mem h10T with h | h | h | h
    · exact h2 h
    all_goals omega
  have hTvalid : ∀ c ∈ dstName ++ defDelim :: natToDec data.length
      ++ defDelim :: sha256hex data, validScalar c := by
    intro c hc
    rcases headerTail_mem hc with h | h | h | h
    · exact h1 c h
    · exact validScalar_of_lt (by omega)
    · exact validScalar_of_lt (by omega)
    · exact validScalar_of_lt (by omega)
  have hdec := utf8Decode_encode hTvalid
  have hrs : rsplit2 defDelim (dstName ++ defDelim :: natToDec data.length
      ++ defDelim :: sha256hex data)
      = some (dstName, natToDec data.length, sha256hex data) := by
    apply rsplit2_spec
    · intro x hx
      have := natToDec_digits data.length x hx
      simp [defDelim]
      omega
    · intro x hx
      rcases sha256hex_charset data x hx with h | h <;> simp [defDelim] <;> omega
  have hslice : pySlice data ((data.length : Nat) : Int) = data := by
    unfold pySlice
    rw [if_pos (by omega)]
    simp
  unfold processPart chunkOf
  rw [hnl]
  simp only [hdec, Option.some_bind, hrs, pyInt_natToDec, hslice]
  rw [if_neg (by simp)]
  rw [h3]

/-! ## No occurrence of the boundary inside a well-formed chunk -/

theorem chunkOf_noStraddle {dstName data : List Nat}
    (hname : ¬ SB <:+: utf8Encode dstName ++ [defDelim])
    (hdata : ¬ SB <:+: data) :
    noStraddleOcc SB (chunkOf dstName data) := by
  apply noStraddleOcc_of_borderFree (by decide) (by decide)
  intro hinf
  unfold chunkOf at hinf
  rcases infix_sep_split (by decide) (by decide) hinf with hH | hD
  · -- inside the encoded header tail
    have hencT : utf8Encode (dstName ++ defDelim :: natToDec data.length
          ++ defDelim :: sha256hex data)
        = (utf8Encode dstName ++ [defDelim]) ++
          (natToDec data.length ++ defDelim :: sha256hex data) := by
      rw [show dstName ++ defDelim :: natToDec data.length ++ defDelim :: sha256hex data
          = (dstName ++ [defDelim]) ++ (natToDec data.length ++ defDelim :: sha256hex data)
          by simp]
      rw [utf8Encode_append, utf8Encode_append]
      rw [show utf8Encode [defDelim] = [defDelim] by decide]
      rw [utf8Encode_ascii (s := natToDec data.length ++ defDelim :: sha256hex data) ?hascii]
      case hascii =>
        intro c hc
        simp [defDelim] at hc
        rcases hc with h | h | h
        · have := natToDec_digits data.length c h; omega
        · omega
        · rcases sha256hex_charset data c h with h' | h' <;> omega
    rw [hencT] at hH
    rcases infix_append_split hH with h1 | h2 | ⟨s, t, hst, hs, ht, hsa, htb⟩
    · exact hname h1
    · refine not_infix_of_forbidden (show (45 : Nat) ∈ SB by decide) ?_ h2
      intro y hy
      simp [defDelim] at hy
      rcases hy with h | h | h
      · have := natToDec_digits data.length y h; omega
      · omega
      · rcases sha256hex_charset data y h with h' | h' <;> omega
    · -- a straddling occurrence would force a colon before the end of `SB`
      have hlast : s.getLast? = some 58 := by
        obtain ⟨p, hp⟩ := hsa
        have := List.getLast?_append_of_ne_nil p hs
        rw [hp] at this
        rw [← this, List.getLast?_concat]
        rfl
      have hpre : s <+: SB := ⟨t, hst⟩
      have hslen : s.length < SB.length := by
        have hlen := congrArg List.length hst
        simp at hlen
        have : 0 < t.length := List.length_pos.mpr ht
        omega
      have hs0 : 0 < s.length := List.length_pos.mpr hs
      have hfin : ∀ k < SB.length, 0 < k → (SB.take k).getLast? ≠ some 58 := by decide
      have hcon := hfin s.length hslen hs0
      rw [← List.prefix_iff_eq_take.mp hpre] at hcon
      exact hcon hlast
  · exact hdata hD


/-! ## The split loop over parsed chunks -/

/-- The file writes produced by the chunks a run of the loop accepts. -/
def okWrites (delimiter : Nat) (outputPath : List Nat) (qs : List (List Nat)) :
    List (List Nat × List Nat) :=
  qs.filterMap fun q =>
    match processPart delimiter q with
    | .ok fn c => some (outPath outputPath fn, c)
    | .error _ => none

/-- The dictionary accumulated over a run of accepted chunks. -/
def okDict (delimiter : Nat) (outputPath : List Nat) (qs : List (List Nat))
    (d : List (List Nat × List Nat)) : List (List Nat × List Nat) :=
  qs.foldl (fun acc q =>
    match processPart delimiter q with
    | .ok fn _ => dictInsert acc fn (outPath outputPath fn)
    | .error _ => acc) d

theorem okWrites_cons_ok {delimiter : Nat} {out q : List Nat} {qs : List (List Nat)}
    {fn c : List Nat} (h : processPart delimiter q = .ok fn c) :
    okWrites delimiter out (q :: qs)
      = (outPath out fn, c) :: okWrites delimiter out qs := by
  unfold okWrites
  rw [List.filterMap_cons]
  simp only [h]

theorem okDict_cons_ok {delimiter : Nat} {out q : List Nat} {qs : List (List Nat)}
    {fn c : List Nat} (h : processPart delimiter q = .ok fn c)
    (d : List (List Nat × List Nat)) :
    okDict delimiter out (q :: qs) d
      = okDict delimiter out qs (dictInsert d fn (outPath out fn)) := by
  unfold okDict
  rw [List.foldl_cons]
  simp only [h]

theorem splitGo_append_ok (delimiter : Nat) (out : List Nat) :
    ∀ (pre rest : List (List Nat)) (ws d : List (List Nat × List Nat)),
      (∀ q ∈ pre, (processPart delimiter q).isOk = true) →
      splitGo delimiter out (pre ++ rest) ws d
        = splitGo delimiter out rest ((okWrites delimiter out pre).reverse ++ ws)
            (okDict delimiter out pre d) := by
  intro pre
  induction pre with
  | nil =>
    intro rest ws d _
    simp [okWrites, okDict]
  | cons q pre' ih =>
    intro rest ws d h
    have hq := h q (List.mem_cons_self _ _)
    obtain ⟨fn, c, hpq⟩ : ∃ fn c, processPart delimiter q = .ok fn c := by
      cases hpq : processPart delimiter q with
      | ok fn c => exact ⟨fn, c, rfl⟩
      | error e => rw [hpq] at hq; simp [PartResult.isOk] at hq
    rw [List.cons_append, splitGo, hpq]
    show splitGo delimiter out (pre' ++ rest) ((outPath out fn, c) :: ws)
        (dictInsert d fn (outPath out fn)) = _
    rw [ih rest _ _ (fun x hx => h x (List.mem_cons_of_mem _ hx))]
    rw [okWrites_cons_ok hpq, okDict_cons_ok hpq]
    simp

theorem splitGo_all_ok (delimiter : Nat) (out : List Nat)
    (qs : List (List Nat)) (ws d : List (List Nat × List Nat))
    (h : ∀ q ∈ qs, (processPart delimiter q).isOk = true) :
    splitGo delimiter out qs ws d
      = ⟨ws.reverse ++ okWrites delimiter out qs, .ok (okDict delimiter out qs d)⟩ := by
  have hrw := splitGo_append_ok delimiter out qs [] ws d h
  rw [List.append_nil] at hrw
  rw [hrw]
  show SplitOutcome.mk (((okWrites delimiter out qs).reverse ++ ws).reverse) _ = _
  simp

/-- A fatal error aborts the loop at once: the outcome keeps exactly the
writes of the chunks already accepted, and reports the error. -/
theorem split_error_at (sentinel content out : List Nat) (delimiter : Nat)
    (encode : List Nat → List Nat) (pre post : List (List Nat)) (part : List Nat)
    (e : SplitError)
    (hparts : (splitOnSep (encode (sentinel ++ [delimiter])) content).drop 1
      = pre ++ part :: post)
    (hpre : ∀ q ∈ pre, (processPart delimiter q).isOk = true)
    (herr : processPart delimiter part = .error e) :
    split sentinel content out delimiter encode
      = ⟨okWrites delimiter out pre, .error e⟩ := by
  unfold split
  show splitGo delimiter out
      ((splitOnSep (encode (sentinel ++ [delimiter])) content).drop 1) [] [] = _
  rw [hparts, splitGo_append_ok delimiter out pre (part :: post) [] [] hpre]
  rw [splitGo, herr]
  show SplitOutcome.mk (((okWrites delimiter out pre).reverse ++ []).reverse) (.error e) = _
  simp

/-! ## Putting it together: the round trip -/

/-- The dictionary `split` returns for a list of recovered entries. -/
def dictOf (out : List Nat) (entries : List (List Nat × List Nat)) :
    List (List Nat × List Nat) :=
  entries.foldl (fun acc e => dictInsert acc e.1 (outPath out e.1)) []

/-- A mapping entry the archive format can faithfully carry: a name made of
Unicode scalars with no newline, no surrounding whitespace and no embedded
`"--STARTFILE--:"` boundary (even one completed by the following field
delimiter), and a payload that does not contain the boundary bytes. -/
def validEntry (e : List Nat × List Nat) : Prop :=
  (∀ c ∈ e.1, validScalar c) ∧ 10 ∉ e.1 ∧ pyStrip e.1 = e.1 ∧
  ¬ SB <:+: utf8Encode e.1 ++ [defDelim] ∧ ¬ SB <:+: e.2

instance (e : List Nat × List Nat) : Decidable (validEntry e) := by
  unfold validEntry; infer_instance

theorem okWrites_chunks (out : List Nat) :
    ∀ entries : List (List Nat × List Nat), (∀ e ∈ entries, validEntry e) →
      okWrites defDelim out (entries.map fun e => chunkOf e.1 e.2)
        = entries.map fun e => (outPath out e.1, e.2) := by
  intro entries
  induction entries with
  | nil => intro _; rfl
  | cons e es ih =>
    intro h
    obtain ⟨hv1, hv2, hv3, _, _⟩ := h e (List.mem_cons_self _ _)
    rw [List.map_cons, okWrites_cons_ok (processPart_chunkOf e.2 hv1 hv2 hv3)]
    rw [ih (fun x hx => h x (List.mem_cons_of_mem _ hx)), List.map_cons]

theorem okDict_chunks (out : List Nat) :
    ∀ (entries : List (List Nat × List Nat)) (d : List (List Nat × List Nat)),
      (∀ e ∈ entries, validEntry e) →
      okDict defDelim out (entries.map fun e => chunkOf e.1 e.2) d
        = entries.foldl (fun acc e => dictInsert acc e.1 (outPath out e.1)) d := by
  intro entries
  induction entries with
  | nil => intro d _; rfl
  | cons e es ih =>
    intro d h
    obtain ⟨hv1, hv2, hv3, _, _⟩ := h e (List.mem_cons_self _ _)
    rw [List.map_cons, okDict_cons_ok (processPart_chunkOf e.2 hv1 hv2 hv3),
      List.foldl_cons]
    exact ih _ (fun x hx => h x (List.mem_cons_of_mem _ hx))

theorem processPart_chunk_isOk {e : List Nat × List Nat} (h : validEntry e) :
    (processPart defDelim (chunkOf e.1 e.2)).isOk = true := by
  obtain ⟨hv1, hv2, hv3, _, _⟩ := h
  rw [processPart_chunkOf e.2 hv1 hv2 hv3]
  rfl

/-- Master round-trip lemma: with the default sentinel, delimiter and
encoding, splitting the archive produced by `merge` on entries whose source
files all exist writes back exactly the original `(path, bytes)` pairs, in
order, and succeeds with the dictionary folded from the entry names. -/
theorem split_merge_roundtrip (entries : List (List Nat × List Nat)) (out : List Nat)
    (hv : ∀ e ∈ entries, validEntry e) :
    split defSentinel
        (merge defSentinel (entries.map fun e => (e.1, some e.2)) defDelim utf8Encode)
        out defDelim utf8Encode
      = ⟨entries.map fun e => (outPath out e.1, e.2), .ok (dictOf out entries)⟩ := by
  rw [merge_eq_records]
  have hex : ∀ es : List (List Nat × List Nat),
      existing (es.map fun e => (e.1, some e.2)) = es := by
    intro es
    induction es with
    | nil => rfl
    | cons e es' ih =>
      show (e.1, e.2) :: existing (es'.map fun e => (e.1, some e.2)) = e :: es'
      rw [ih]
  rw [hex]
  have hmap : (entries.map fun e => record defSentinel defDelim utf8Encode e.1 e.2)
      = (entries.map fun e => chunkOf e.1 e.2).map (SB ++ ·) := by
    rw [List.map_map]
    simp [Function.comp, record_eq_chunk]
  rw [hmap]
  unfold split
  show splitGo defDelim out
      ((splitOnSep (utf8Encode (defSentinel ++ [defDelim]))
        (((entries.map fun e => chunkOf e.1 e.2).map (SB ++ ·)).flatten)).drop 1) [] [] = _
  rw [utf8Encode_SB, splitOnSep_archive SB (by decide) _ ?hstraddle]
  case hstraddle =>
    intro c hc
    rw [List.mem_map] at hc
    obtain ⟨e, he, rfl⟩ := hc
    obtain ⟨_, _, _, h4, h5⟩ := hv e he
    exact chunkOf_noStraddle h4 h5
  rw [List.drop_one, List.tail_cons]
  rw [splitGo_all_ok defDelim out _ [] []
    (fun q hq => by
      rw [List.mem_map] at hq
      obtain ⟨e, he, rfl⟩ := hq
      exact processPart_chunk_isOk (hv e he))]
  rw [okWrites_chunks out entries hv, okDict_chunks out entries [] hv]
  rfl


/-! ## Dictionary lemmas -/

theorem dictInsert_fresh {d : List (List Nat × List Nat)} {k : List Nat}
    (h : ∀ p ∈ d, p.1 ≠ k) (v : List Nat) : dictInsert d k v = d ++ [(k, v)] := by
  unfold dictInsert
  rw [if_neg]
  simp only [List.any_eq_true, beq_iff_eq, not_exists, not_and]
  intro p hp
  simpa using h p hp

theorem dictOf_go (out : List Nat) :
    ∀ (entries : List (List Nat × List Nat)) (d : List (List Nat × List Nat)),
      (entries.map Prod.fst).Nodup →
      (∀ e ∈ entries, ∀ p ∈ d, p.1 ≠ e.1) →
      entries.foldl (fun acc e => dictInsert acc e.1 (outPath out e.1)) d
        = d ++ entries.map fun e => (e.1, outPath out e.1) := by
  intro entries
  induction entries with
  | nil => intro d _ _; simp
  | cons e es ih =>
    intro d hnd hfresh
    rw [List.foldl_cons, dictInsert_fresh (hfresh e (List.mem_cons_self _ _)) _]
    rw [List.map_cons] at hnd
    have hhead : ∀ e' ∈ es, e'.1 ≠ e.1 := by
      intro e' he' heq
      have := List.nodup_cons.mp hnd
      exact this.1 (heq ▸ List.mem_map_of_mem Prod.fst he')
    rw [ih (d ++ [(e.1, outPath out e.1)]) (List.nodup_cons.mp hnd).2 ?hfresh2]
    case hfresh2 =>
      intro e' he' p hp
      rcases List.mem_append.mp hp with h | h
      · exact hfresh e' (List.mem_cons_of_mem _ he') p h
      · simp at h
        subst h
        exact fun heq => hhead e' he' heq.symm
    simp

theorem dictOf_nodup (out : List Nat) (entries : List (List Nat × List Nat))
    (h : (entries.map Prod.fst).Nodup) :
    dictOf out entries = entries.map fun e => (e.1, outPath out e.1) := by
  unfold dictOf
  rw [dictOf_go out entries [] h (by intro e _ p hp; simp at hp)]
  simp


/-! ## Claim theorems -/

/-- C1 — Round-trip: for every non-empty mapping of entry names to existing
files whose contents are arbitrary binary bytes (the payload may contain the
delimiter byte but must not contain the sentinel+delimiter byte sequence;
entry names obey the data-model invariant: Unicode scalars, no newline, no
surrounding whitespace, no embedded sentinel+delimiter boundary), running
`split` on the archive produced by `merge` reproduces exactly the original
entries: the same names and byte-identical contents, with one output file
written per entry, in order. -/
theorem c1_round_trip (entries : List (List Nat × List Nat)) (out : List Nat)
    (hne : entries ≠ [])
    (hnames : (entries.map Prod.fst).Nodup)
    (hv : ∀ e ∈ entries, validEntry e) :
    split defSentinel
        (merge defSentinel (entries.map fun e => (e.1, some e.2)) defDelim utf8Encode)
        out defDelim utf8Encode
      = ⟨entries.map fun e => (outPath out e.1, e.2),
         .ok (entries.map fun e => (e.1, outPath out e.1))⟩ := by
  rw [split_merge_roundtrip entries out hv, dictOf_nodup out entries hnames]

theorem c1_round_trip_witness :
    ([(strN "a.txt", strN "hello"), (strN "b.bin", [0, 1, 2, 58, 10])]
        : List (List Nat × List Nat)) ≠ [] ∧
    (([(strN "a.txt", strN "hello"), (strN "b.bin", [0, 1, 2, 58, 10])]
        : List (List Nat × List Nat)).map Prod.fst).Nodup ∧
    (∀ e ∈ ([(strN "a.txt", strN "hello"), (strN "b.bin", [0, 1, 2, 58, 10])]
        : List (List Nat × List Nat)), validEntry e) ∧
    split defSentinel
        (merge defSentinel
          [(strN "a.txt", some (strN "hello")), (strN "b.bin", some [0, 1, 2, 58, 10])]
          defDelim utf8Encode)
        (strN "out") defDelim utf8Encode
      = ⟨[(outPath (strN "out") (strN "a.txt"), strN "hello"),
          (outPath (strN "out") (strN "b.bin"), [0, 1, 2, 58, 10])],
         .ok [(strN "a.txt", outPath (strN "out") (strN "a.txt")),
              (strN "b.bin", outPath (strN "out") (strN "b.bin"))]⟩ :=
  ⟨by decide, by decide, by decide,
   c1_round_trip [(strN "a.txt", strN "hello"), (strN "b.bin", [0, 1, 2, 58, 10])]
     (strN "out") (by decide) (by decide) (by decide)⟩

/-- C2 — Archive byte format: `merge` writes, for each existing entry in
iteration order, exactly the encoded header line
`"<sentinel><delimiter><name><delimiter><size><delimiter><checksum>\n"`
immediately followed by the raw payload bytes with no trailing separator
(this is what `record` spells out); and on the spec's concrete two-file
example the archive equals the concrete byte string given there. -/
theorem c2_archive_format :
    (∀ (sentinel : List Nat) (delimiter : Nat) (encode : List Nat → List Nat)
        (inputs : List (List Nat × Option (List Nat))),
      merge sentinel inputs delimiter encode
        = ((existing inputs).map fun e => record sentinel delimiter encode e.1 e.2).flatten) ∧
    merge defSentinel
        [(strN "a.txt", some (strN "hello")), (strN "b.bin", some [0, 1, 2])]
        defDelim utf8Encode
      = strN "--STARTFILE--:a.txt:5:2cf24dba5fb0a30e26e83b2ac5b9e29e1b161e5c1fa7425e73043362938b9824"
          ++ 10 :: strN "hello"
        ++ strN "--STARTFILE--:b.bin:3:ae4b3280e56e2faf83f414a6e3dabe9d5fbe18976544c05fed121accb85b53fc"
          ++ 10 :: [0, 1, 2] :=
  ⟨merge_eq_records, by decide⟩

/-- C4 — Delimiter-tolerant names: the header parser splits the decoded
header from the right with at most 2 splits, so for any header whose size
and checksum fields are free of the delimiter the name, size and checksum
fields are recovered correctly even when the name contains the delimiter;
and such a name round-trips through `merge` and `split`. -/
theorem c4_delimiter_in_name :
    (∀ (delimiter : Nat) (name sizeS check : List Nat),
      (∀ x ∈ sizeS, x ≠ delimiter) → (∀ x ∈ check, x ≠ delimiter) →
      rsplit2 delimiter (name ++ delimiter :: sizeS ++ delimiter :: check)
        = some (name, sizeS, check)) ∧
    (∀ name data out : List Nat, defDelim ∈ name → validEntry (name, data) →
      split defSentinel (merge defSentinel [(name, some data)] defDelim utf8Encode)
          out defDelim utf8Encode
        = ⟨[(outPath out name, data)], .ok [(name, outPath out name)]⟩) := by
  constructor
  · intro d n sizeS check hs hc
    exact rsplit2_spec hs hc
  · intro name data out _ hv
    have h := split_merge_roundtrip [(name, data)] out (by simpa using hv)
    rw [show ([(name, data)].map fun e => (e.1, some e.2)) = [(name, some data)] from rfl]
      at h
    rw [h]
    simp [dictOf, dictInsert]

theorem c4_delimiter_in_name_witness :
    (∀ x ∈ strN "5", x ≠ defDelim) ∧ (∀ x ∈ strN "abc", x ≠ defDelim) ∧
    rsplit2 defDelim
        (strN "sub:dir/file.txt" ++ defDelim :: strN "5" ++ defDelim :: strN "abc")
      = some (strN "sub:dir/file.txt", strN "5", strN "abc") ∧
    defDelim ∈ strN "sub:dir/file.txt" ∧
    validEntry (strN "sub:dir/file.txt", strN "hello") ∧
    split defSentinel
        (merge defSentinel [(strN "sub:dir/file.txt", some (strN "hello"))]
          defDelim utf8Encode)
        (strN "out") defDelim utf8Encode
      = ⟨[(outPath (strN "out") (strN "sub:dir/file.txt"), strN "hello")],
         .ok [(strN "sub:dir/file.txt", outPath (strN "out") (strN "sub:dir/file.txt"))]⟩ :=
  ⟨by decide, by decide,
   c4_delimiter_in_name.1 defDelim (strN "sub:dir/file.txt") (strN "5") (strN "abc")
     (by decide) (by decide),
   by decide, by decide,
   c4_delimiter_in_name.2 (strN "sub:dir/file.txt") (strN "hello") (strN "out")
     (by decide) (by decide)⟩


theorem dropWhile_all {p : Nat → Bool} :
    ∀ {s : List Nat}, (∀ b ∈ s, p b = true) → s.dropWhile p = [] := by
  intro s
  induction s with
  | nil => intro _; rfl
  | cons a s' ih =>
    intro h
    rw [List.dropWhile_cons, if_pos (h a (List.mem_cons_self _ _))]
    exact ih fun b hb => h b (List.mem_cons_of_mem _ hb)

theorem splitFirstNewline_none {part : List Nat} (h : ∀ b ∈ part, b ≠ 10) :
    splitFirstNewline part = none := by
  unfold splitFirstNewline
  rw [dropWhile_all (fun b hb => by simpa using h b hb)]

/-- C3 — Checksum integrity: when the recomputed SHA-256 of the extracted
payload of some entry differs from the checksum field in its header (all
earlier chunks parsing fine), `split` aborts the whole operation with a
fatal `checksumMismatch` error that names the entry, the expected checksum
and the actual checksum, and the writes performed are exactly those of the
earlier entries — no output file is written for the failing entry. -/
theorem c3_checksum_mismatch_fatal
    (sentinel content out : List Nat) (delimiter : Nat) (encode : List Nat → List Nat)
    (pre post : List (List Nat)) (part header body fname sizeStr check : List Nat)
    (size : Int)
    (hparts : (splitOnSep (encode (sentinel ++ [delimiter])) content).drop 1
      = pre ++ part :: post)
    (hpre : ∀ q ∈ pre, (processPart delimiter q).isOk = true)
    (hnl : splitFirstNewline part = some (header, body))
    (hdr : (utf8Decode header).bind (rsplit2 delimiter) = some (fname, sizeStr, check))
    (hsz : pyInt sizeStr = some size)
    (hck : sha256hex (pySlice body size) ≠ check) :
    split sentinel content out delimiter encode
      = ⟨okWrites delimiter out pre,
         .error (.checksumMismatch fname check (sha256hex (pySlice body size)))⟩ := by
  apply split_error_at sentinel content out delimiter encode pre post part _ hparts hpre
  unfold processPart
  simp only [hnl, hdr, hsz]
  rw [if_pos hck]

theorem c3_checksum_mismatch_fatal_witness :
    split defSentinel
        (strN "--STARTFILE--:x:1:0000000000000000000000000000000000000000000000000000000000000000"
          ++ 10 :: [65])
        (strN "out") defDelim utf8Encode
      = ⟨[], .error (.checksumMismatch (strN "x")
          (strN "0000000000000000000000000000000000000000000000000000000000000000")
          (sha256hex (pySlice [65] 1)))⟩ :=
  c3_checksum_mismatch_fatal defSentinel
    (strN "--STARTFILE--:x:1:0000000000000000000000000000000000000000000000000000000000000000"
      ++ 10 :: [65])
    (strN "out") defDelim utf8Encode [] []
    (strN "x:1:0000000000000000000000000000000000000000000000000000000000000000" ++ 10 :: [65])
    (strN "x:1:0000000000000000000000000000000000000000000000000000000000000000") [65]
    (strN "x") (strN "1")
    (strN "0000000000000000000000000000000000000000000000000000000000000000") 1
    (by decide) (by decide) (by decide) (by decide) (by decide) (by decide)

/-- C8 — No rollback on partial failure: if `split` hits a fatal error at
some entry after the earlier chunks were all accepted, the outcome records
exactly the output files already written for those earlier entries (they
remain written — there is no transactional rollback) together with the
error that aborted the operation. -/
theorem c8_no_rollback
    (sentinel content out : List Nat) (delimiter : Nat) (encode : List Nat → List Nat)
    (pre post : List (List Nat)) (part : List Nat) (e : SplitError)
    (hparts : (splitOnSep (encode (sentinel ++ [delimiter])) content).drop 1
      = pre ++ part :: post)
    (hpre : ∀ q ∈ pre, (processPart delimiter q).isOk = true)
    (herr : processPart delimiter part = .error e) :
    split sentinel content out delimiter encode
      = ⟨okWrites delimiter out pre, .error e⟩ :=
  split_error_at sentinel content out delimiter encode pre post part e hparts hpre herr

theorem c8_no_rollback_witness :
    split defSentinel
        (strN "--STARTFILE--:a:1:" ++ sha256hex [65] ++ 10 :: [65]
          ++ strN "--STARTFILE--:x:1:0000000000000000000000000000000000000000000000000000000000000000"
          ++ 10 :: [66])
        (strN "out") defDelim utf8Encode
      = ⟨okWrites defDelim (strN "out") [strN "a:1:" ++ sha256hex [65] ++ 10 :: [65]],
         .error (.checksumMismatch (strN "x")
          (strN "0000000000000000000000000000000000000000000000000000000000000000")
          (sha256hex [66]))⟩ :=
  c8_no_rollback defSentinel
    (strN "--STARTFILE--:a:1:" ++ sha256hex [65] ++ 10 :: [65]
      ++ strN "--STARTFILE--:x:1:0000000000000000000000000000000000000000000000000000000000000000"
      ++ 10 :: [66])
    (strN "out") defDelim utf8Encode
    [strN "a:1:" ++ sha256hex [65] ++ 10 :: [65]] []
    (strN "x:1:0000000000000000000000000000000000000000000000000000000000000000" ++ 10 :: [66])
    (.checksumMismatch (strN "x")
      (strN "0000000000000000000000000000000000000000000000000000000000000000")
      (sha256hex [66]))
    (by decide) (by decide) (by decide)

/-- C6 (amended) — Parse-error conditions: during `split`, a chunk with no
newline byte is a fatal `noNewline` error; a header that does not decode or
does not decompose into exactly 3 delimiter-separated fields is a fatal
`invalidHeader` error identifying the offending header bytes; a size field
on which the Python `int()` fails is a fatal `badSize` error; and any such
per-chunk error aborts the entire split.  (A size field that parses as a
*negative* integer is *not* an error: `int()` accepts it and the payload is
sliced from the end, as the counterexample shows.) -/
theorem c6_parse_errors :
    (∀ (delimiter : Nat) (part : List Nat), (∀ b ∈ part, b ≠ 10) →
      processPart delimiter part = .error (.noNewline part)) ∧
    (∀ (delimiter : Nat) (part header body : List Nat),
      splitFirstNewline part = some (header, body) →
      (utf8Decode header).bind (rsplit2 delimiter) = none →
      processPart delimiter part = .error (.invalidHeader header)) ∧
    (∀ (delimiter : Nat) (part header body fname sizeStr check : List Nat),
      splitFirstNewline part = some (header, body) →
      (utf8Decode header).bind (rsplit2 delimiter) = some (fname, sizeStr, check) →
      pyInt sizeStr = none →
      processPart delimiter part = .error (.badSize sizeStr)) ∧
    (∀ (sentinel content out : List Nat) (delimiter : Nat) (encode : List Nat → List Nat)
        (pre post : List (List Nat)) (part : List Nat) (e : SplitError),
      (splitOnSep (encode (sentinel ++ [delimiter])) content).drop 1 = pre ++ part :: post →
      (∀ q ∈ pre, (processPart delimiter q).isOk = true) →
      processPart delimiter part = .error e →
      (split sentinel content out delimiter encode).result = .error e) := by
  refine ⟨?h1, ?h2, ?h3, ?h4⟩
  case h1 =>
    intro delimiter part h
    unfold processPart
    rw [splitFirstNewline_none h]
  case h2 =>
    intro delimiter part header body hnl hdr
    unfold processPart
    simp only [hnl, hdr]
  case h3 =>
    intro delimiter part header body fname sizeStr check hnl hdr hsz
    unfold processPart
    simp only [hnl, hdr, hsz]
  case h4 =>
    intro sentinel content out delimiter encode pre post part e hparts hpre herr
    rw [split_error_at sentinel content out delimiter encode pre post part e hparts hpre herr]

theorem c6_parse_errors_witness :
    processPart defDelim (strN "nonewline") = .error (.noNewline (strN "nonewline")) ∧
    processPart defDelim (strN "only-one-field" ++ 10 :: strN "body")
      = .error (.invalidHeader (strN "only-one-field")) ∧
    processPart defDelim (strN "x:5x:abc" ++ 10 :: strN "body")
      = .error (.badSize (strN "5x")) ∧
    (split defSentinel (strN "--STARTFILE--:nonewline") (strN "out")
        defDelim utf8Encode).result
      = .error (.noNewline (strN "nonewline")) :=
  ⟨c6_parse_errors.1 defDelim (strN "nonewline") (by decide),
   c6_parse_errors.2.1 defDelim (strN "only-one-field" ++ 10 :: strN "body")
     (strN "only-one-field") (strN "body") (by decide) (by decide),
   c6_parse_errors.2.2.1 defDelim (strN "x:5x:abc" ++ 10 :: strN "body")
     (strN "x:5x:abc") (strN "body") (strN "x") (strN "5x") (strN "abc")
     (by decide) (by decide) (by decide),
   c6_parse_errors.2.2.2 defSentinel (strN "--STARTFILE--:nonewline") (strN "out")
     defDelim utf8Encode [] [] (strN "nonewline") (.noNewline (strN "nonewline"))
     (by decide) (by decide) (by decide)⟩

/-- C6 counterexample — the claim as frozen is false: the size field `"-1"`
does not parse as a non-negative integer, yet `split` raises no error at
all: `int("-1")` succeeds and `body[:-1]` slices from the end, so with a
matching checksum of the empty payload the entry is accepted, an (empty)
output file is written, and the split completes successfully. -/
theorem c6_counterexample :
    split defSentinel
        (strN "--STARTFILE--:x:-1:e3b0c44298fc1c149afbf4c8996fb92427ae41e4649b934ca495991b7852b855"
          ++ 10 :: [65])
        (strN "out") defDelim utf8Encode
      = ⟨[(outPath (strN "out") (strN "x"), [])],
         .ok [(strN "x", outPath (strN "out") (strN "x"))]⟩ := by
  decide


/-- Model of `s.encode(latin-1)`: the identity on code points below 256. -/
def latin1Encode (s : List Nat) : List Nat := s

/-- C5 counterexample — the claim as frozen is false: `split` does *not*
decode header bytes with the caller-supplied encoding.  Line 47 of the
source calls `header.decode()` with no argument, which is always UTF-8.
Merging the single entry named `"é"` (code point 233) with the matching
latin-1 encoding produces the header byte 0xE9, which is not valid UTF-8,
so the round trip fails with `invalidHeader` instead of parsing the header
correctly as the claim asserts. -/
theorem c5_counterexample :
    split defSentinel
        (merge defSentinel [([233], some [65])] defDelim latin1Encode)
        (strN "out") defDelim latin1Encode
      = ⟨[], .error (.invalidHeader (233 :: 58 :: 49 :: 58 :: sha256hex [65]))⟩ := by
  decide

/-- C5 (amended) — the `encoding` parameter influences `split` only through
the encoded `sentinel+delimiter` boundary pattern it is asked to search
for; the header bytes themselves are always decoded as UTF-8 (the
parameterless `bytes.decode()` on line 47), never with the caller
encoding.  Consequently two encodings that agree on the boundary string
give byte-for-byte identical split outcomes on every archive. -/
theorem c5_encoding_only_boundary
    (sentinel content out : List Nat) (delimiter : Nat)
    (enc1 enc2 : List Nat → List Nat)
    (h : enc1 (sentinel ++ [delimiter]) = enc2 (sentinel ++ [delimiter])) :
    split sentinel content out delimiter enc1 = split sentinel content out delimiter enc2 := by
  unfold split
  rw [h]

theorem c5_encoding_only_boundary_witness :
    utf8Encode (defSentinel ++ [defDelim]) = latin1Encode (defSentinel ++ [defDelim]) ∧
    split defSentinel (strN "--STARTFILE--:x:1:junk") (strN "out") defDelim utf8Encode
      = split defSentinel (strN "--STARTFILE--:x:1:junk") (strN "out") defDelim latin1Encode :=
  ⟨by decide,
   c5_encoding_only_boundary defSentinel (strN "--STARTFILE--:x:1:junk") (strN "out")
     defDelim utf8Encode latin1Encode (by decide)⟩

/-- C7 — Missing-input skip: `merge` is a total function of the input
mapping — an entry whose source path is not an existing regular file (the
`none` case of the model) raises nothing and contributes nothing; the
archive is exactly the concatenation of one record per *existing* input, in
iteration order, so the archive record count equals the count of existing
inputs. -/
theorem c7_missing_input_skip
    (sentinel : List Nat) (delimiter : Nat) (encode : List Nat → List Nat)
    (inputs : List (List Nat × Option (List Nat))) :
    merge sentinel inputs delimiter encode
      = ((existing inputs).map fun e => record sentinel delimiter encode e.1 e.2).flatten ∧
    (existing inputs).length = inputs.countP (fun p => p.2.isSome) := by
  refine ⟨merge_eq_records sentinel delimiter encode inputs, ?_⟩
  induction inputs with
  | nil => rfl
  | cons p rest ih =>
    obtain ⟨name, dOpt⟩ := p
    cases dOpt with
    | none =>
      simp only [existing, List.filterMap_cons, List.countP_cons] at ih ⊢
      simpa using ih
    | some data =>
      simp only [existing, List.filterMap_cons, List.countP_cons] at ih ⊢
      simp [ih]

/-- C9 — Zero-entry archives and the discarded leading chunk: splitting any
byte sequence that contains no occurrence of the encoded sentinel+delimiter
pattern (the empty sequence included) succeeds, writes no output file and
returns the empty mapping; and any bytes that precede the first boundary
occurrence are discarded — they do not change the outcome of the split. -/
theorem c9_no_sentinel
    (sentinel out : List Nat) (delimiter : Nat) (encode : List Nat → List Nat) :
    (∀ content : List Nat, encode (sentinel ++ [delimiter]) ≠ [] →
      ¬ encode (sentinel ++ [delimiter]) <:+: content →
      split sentinel content out delimiter encode = ⟨[], .ok []⟩) ∧
    (∀ pre rest : List Nat, encode (sentinel ++ [delimiter]) ≠ [] →
      noStraddleOcc (encode (sentinel ++ [delimiter])) pre →
      split sentinel (pre ++ encode (sentinel ++ [delimiter]) ++ rest) out delimiter encode
        = split sentinel (encode (sentinel ++ [delimiter]) ++ rest) out delimiter encode) := by
  constructor
  · intro content hne hni
    unfold split
    show splitGo delimiter out
        ((splitOnSep (encode (sentinel ++ [delimiter])) content).drop 1) [] [] = _
    have hocc : ∀ i, ¬ encode (sentinel ++ [delimiter]) <+: content.drop i := by
      intro i hp
      exact hni (List.infix_iff_prefix_suffix.mpr
        ⟨content.drop i, hp, List.drop_suffix i content⟩)
    unfold splitOnSep
    rw [splitOnSepGo_noOcc _ hne content content.length [] le_rfl hocc]
    rfl
  · intro pre rest hne hns
    unfold split
    show splitGo delimiter out
        ((splitOnSep (encode (sentinel ++ [delimiter]))
          (pre ++ encode (sentinel ++ [delimiter]) ++ rest)).drop 1) [] []
      = splitGo delimiter out
          ((splitOnSep (encode (sentinel ++ [delimiter]))
            (encode (sentinel ++ [delimiter]) ++ rest)).drop 1) [] []
    rw [splitOnSep_chunk _ hne pre rest hns, splitOnSep_sep _ hne rest]
    rfl

theorem c9_no_sentinel_witness :
    utf8Encode (defSentinel ++ [defDelim]) ≠ [] ∧
    ¬ utf8Encode (defSentinel ++ [defDelim]) <:+: strN "garbage" ∧
    split defSentinel (strN "garbage") (strN "out") defDelim utf8Encode = ⟨[], .ok []⟩ ∧
    noStraddleOcc (utf8Encode (defSentinel ++ [defDelim])) (strN "junk") ∧
    split defSentinel
        (strN "junk" ++ utf8Encode (defSentinel ++ [defDelim]) ++ strN "x")
        (strN "out") defDelim utf8Encode
      = split defSentinel (utf8Encode (defSentinel ++ [defDelim]) ++ strN "x")
          (strN "out") defDelim utf8Encode :=
  ⟨by decide, by decide,
   (c9_no_sentinel defSentinel (strN "out") defDelim utf8Encode).1 (strN "garbage")
     (by decide) (by decide),
   by decide,
   (c9_no_sentinel defSentinel (strN "out") defDelim utf8Encode).2 (strN "junk") (strN "x")
     (by decide) (by decide)⟩

/-- The content an output path holds after a sequence of writes: the last
write to that path, if any (later writes overwrite earlier ones). -/
def lastWrite (ws : List (List Nat × List Nat)) (p : List Nat) : Option (List Nat) :=
  ((ws.filter fun w => w.1 == p).getLast?).map Prod.snd

/-- C10 — Duplicate names, last wins: when two archive entries carry the
same (trimmed) name, `split` performs both writes in order to the same
output path — so on disk the later entry's payload overwrites the earlier
one — and the returned mapping binds that name exactly once, to the path
written for the last such entry. -/
theorem c10_duplicate_names
    (name d1 d2 out : List Nat)
    (hv1 : validEntry (name, d1)) (hv2 : validEntry (name, d2)) :
    split defSentinel
        (merge defSentinel [(name, some d1), (name, some d2)] defDelim utf8Encode)
        out defDelim utf8Encode
      = ⟨[(outPath out name, d1), (outPath out name, d2)], .ok [(name, outPath out name)]⟩ ∧
    lastWrite
        (split defSentinel
          (merge defSentinel [(name, some d1), (name, some d2)] defDelim utf8Encode)
          out defDelim utf8Encode).writes
        (outPath out name)
      = some d2 := by
  have h := split_merge_roundtrip [(name, d1), (name, d2)] out
    (by intro e he; rcases List.mem_cons.mp he with rfl | he'
        · exact hv1
        · rcases List.mem_cons.mp he' with rfl | he''
          · exact hv2
          · simp at he'')
  rw [show ([((name, d1) : List Nat × List Nat), (name, d2)].map fun e => (e.1, some e.2))
      = [(name, some d1), (name, some d2)] from rfl] at h
  rw [h]
  constructor
  · show SplitOutcome.mk _ (.ok (dictOf out [(name, d1), (name, d2)])) = _
    have hdict : dictOf out [(name, d1), (name, d2)] = [(name, outPath out name)] := by
      simp [dictOf, dictInsert]
    rw [hdict]
    rfl
  · simp [lastWrite]

theorem c10_duplicate_names_witness :
    validEntry (strN "x", [1]) ∧ validEntry (strN "x", [2, 3]) ∧
    split defSentinel
        (merge defSentinel [(strN "x", some [1]), (strN "x", some [2, 3])]
          defDelim utf8Encode)
        (strN "out") defDelim utf8Encode
      = ⟨[(outPath (strN "out") (strN "x"), [1]), (outPath (strN "out") (strN "x"), [2, 3])],
         .ok [(strN "x", outPath (strN "out") (strN "x"))]⟩ ∧
    lastWrite
        (split defSentinel
          (merge defSentinel [(strN "x", some [1]), (strN "x", some [2, 3])]
            defDelim utf8Encode)
          (strN "out") defDelim utf8Encode).writes
        (outPath (strN "out") (strN "x"))
      = some [2, 3] :=
  ⟨by decide, by decide,
   (c10_duplicate_names (strN "x") [1] [2, 3] (strN "out") (by decide) (by decide)).1,
   (c10_duplicate_names (strN "x") [1] [2, 3] (strN "out") (by decide) (by decide)).2⟩

end TextMerge
